import Mathlib

set_option autoImplicit false

/-!
Shallow embedding of the inter-hart signaling subsystem of the tCore SBI
(sbi/main.c, sbi/include/smp.h, sbi/include/mem.h, sbi/devices/clint/clint.c,
sbi/libs/string.c), together with theorems settling the specification claims
about the barrier protocol, the mailbox channel and the CLINT register
operations.
-/

namespace TCore

/-- Configuration constants from sbi/include/mem.h. -/
def CLINT_CTRL_ADDR : Nat := 0x2000000

/-- Mailbox ("data tightly integrated memory") base address, sbi/include/mem.h. -/
def SMP_ADDR : Nat := 0x80100000

/-- Mailbox region size (the mailbox capacity), sbi/include/mem.h. -/
def SMP_SIZE : Nat := 0x1000

/-- Maximum hart count, sbi/include/smp.h. -/
def MAX_HARTS : Nat := 5

/-- The designated primary hart, sbi/include/smp.h. -/
def ZERO_HART : Nat := 0

/-- Per-hart msip register layout, sbi/devices/clint/clint.h. -/
def CLINT_MSIP_OFFSET : Nat := 0x0000

/-- Stride of the per-hart msip registers, sbi/devices/clint/clint.h. -/
def CLINT_MSIP_SIZE : Nat := 4

/-- Base offset of the per-hart mtimecmp registers, sbi/devices/clint/clint.h. -/
def CLINT_MTIMECMP_OFFSET : Nat := 0x4000

/-- Stride of the per-hart mtimecmp registers, sbi/devices/clint/clint.h. -/
def CLINT_MTIMECMP_SIZE : Nat := 8

/-- Offset of the global mtime counter, sbi/devices/clint/clint.h. -/
def CLINT_MTIME_OFFSET : Nat := 0xbff8

/-- End of the msip block used by the IPI broadcast, sbi/include/smp.h:
CLINT_CTRL_ADDR + MAX_HARTS * CLINT_MSIP_SIZE. -/
def CLINT_END_HART_IPI : Nat := CLINT_CTRL_ADDR + MAX_HARTS * CLINT_MSIP_SIZE

/-- Address of hart `hartid`'s msip register, macro CLINT_SOFT in clint.h. -/
def CLINT_SOFT (base hartid : Nat) : Nat :=
  base + hartid * CLINT_MSIP_SIZE + CLINT_MSIP_OFFSET

/-- Addressable memory (both the CLINT register file and RAM are modelled as
total maps from addresses to values). -/
def Mem : Type := Nat → Nat

/-- Store `v` at address `a` (the effect of a single store instruction). -/
def upd (m : Mem) (a v : Nat) : Mem := fun x => if x = a then v else m x

/-- Embedding of clint_check_soft (clint.c): read hart `hartid`'s msip word.
clint_base is CLINT_CTRL_ADDR, as installed by clint_init in main. -/
def clint_check_soft (c : Mem) (hartid : Nat) : Nat :=
  c (CLINT_SOFT CLINT_CTRL_ADDR hartid)

/-- Embedding of clint_send_soft (clint.c): writew(1, CLINT_SOFT(base, hartid)).
This is the specification's raise(hartid). -/
def clint_send_soft (c : Mem) (hartid : Nat) : Mem :=
  upd c (CLINT_SOFT CLINT_CTRL_ADDR hartid) 1

/-- Embedding of clint_clear_soft (clint.c): writew(0, CLINT_SOFT(base, hartid)).
This is the specification's clear(hartid). -/
def clint_clear_soft (c : Mem) (hartid : Nat) : Mem :=
  upd c (CLINT_SOFT CLINT_CTRL_ADDR hartid) 0

/-- Embedding of clint_get_mtime (clint.c): readd(clint_base + CLINT_MTIME_OFFSET).
This is the specification's get_timer(). -/
def clint_get_mtime (c : Mem) : Nat := c (CLINT_CTRL_ADDR + CLINT_MTIME_OFFSET)

/-- Embedding of clint_set_timecmp (clint.c). -/
def clint_set_timecmp (c : Mem) (hartid t : Nat) : Mem :=
  upd c (CLINT_CTRL_ADDR + hartid * CLINT_MTIMECMP_SIZE + CLINT_MTIMECMP_OFFSET) t

/-- The specification's is_pending(hartid): the msip word read back nonzero
(clint_check_soft used as a boolean, as in the smp_resume poll loop). -/
def is_pending (c : Mem) (hartid : Nat) : Bool := clint_check_soft c hartid != 0

/-- The broadcast loop of smp_resume (smp.h): starting at CLINT_CTRL_ADDR, store 1
and advance by CLINT_MSIP_SIZE while the address is below CLINT_END_HART_IPI.
Returns the list of msip addresses written, in order; `fuel` bounds the
unrolling and MAX_HARTS + 1 steps suffice to reach the exit branch. -/
def broadcastFrom (fuel addr : Nat) : List Nat :=
  match fuel with
  | 0 => []
  | f + 1 =>
    if addr < CLINT_END_HART_IPI then addr :: broadcastFrom f (addr + CLINT_MSIP_SIZE)
    else []

/-- The addresses written by smp_resume's broadcast loop. -/
def broadcastAddrs : List Nat := broadcastFrom (MAX_HARTS + 1) CLINT_CTRL_ADDR

/-- The sweep loop of smp_resume (smp.h) under a static pending state: at each
msip address from CLINT_CTRL_ADDR up to CLINT_END_HART_IPI the loop spins
(lw; bnez) until the word reads zero.  With no concurrent writes a set bit
makes the spin loop run forever, modelled as the loop never completing
(result false); otherwise the loop advances to the next address. -/
def sweepFrom (c : Mem) (fuel addr : Nat) : Bool :=
  match fuel with
  | 0 => false
  | f + 1 =>
    if addr < CLINT_END_HART_IPI then
      if c addr = 0 then sweepFrom c f (addr + CLINT_MSIP_SIZE) else false
    else true

/-- Completion of the primary's barrier SWEEP phase over a static pending state. -/
def sweepCompletes (c : Mem) : Bool := sweepFrom c (MAX_HARTS + 1) CLINT_CTRL_ADDR

/-- Store the bytes of `l` at consecutive addresses starting at `a` (the effect
of the byte-by-byte copy loops of memcpy and smp_memcpy when the source is a
buffer disjoint from the destination, given here as the list of its bytes). -/
def writeBytes : Mem → Nat → List Nat → Mem
  | m, _, [] => m
  | m, a, b :: bs => writeBytes (upd m a b) (a + 1) bs

/-- Machine state for the mailbox protocol: RAM (holding the mailbox region at
SMP_ADDR) and the CLINT register file. -/
structure Sys where
  mem : Mem
  clint : Mem

/-- Embedding of the send path of test_ipi (sbi/main.c):
memcpy(SMP_ADDR, m, strlen(m) + 1) followed by clint_send_soft(to_hartid).
The message is given as the list of its bytes before the NUL terminator, so the
copy of strlen(m)+1 bytes stores msg ++ [0] at SMP_ADDR.  The code performs no
length check before the copy. -/
def send (st : Sys) (msg : List Nat) (to_hartid : Nat) : Sys :=
  { mem := writeBytes st.mem SMP_ADDR (msg ++ [0]),
    clint := clint_send_soft st.clint to_hartid }

/-- Embedding of wait_ipi (sbi/main.c): spin on wfi until mip.MSIP is set, then
clint_clear_soft(hartid).  Hardware mirrors hart h's msip word into its
mip.MSIP bit, so the exit condition of the loop is is_pending(hartid); `none`
models a hart still blocked in the wfi loop (bit not set). -/
def wait_ipi (st : Sys) (hartid : Nat) : Option Sys :=
  if is_pending st.clint hartid then
    some { st with clint := clint_clear_soft st.clint hartid }
  else none

/-- Read the NUL-terminated byte string at address `a` (the read loop of
uart_puts over SMP_ADDR in other_main); `fuel` bounds the scan. -/
def readCString (m : Mem) : Nat → Nat → List Nat
  | _, 0 => []
  | a, f + 1 => if m a = 0 then [] else m a :: readCString m (a + 1) f

/-- Embedding of the wake body of other_main (sbi/main.c): wait_ipi(hartid)
(which clears the hart's own pending bit) and then the read of the
NUL-terminated mailbox message at SMP_ADDR (uart_puts(SMP_ADDR)).  The scan
fuel is SMP_SIZE, the mailbox region size. -/
def receive (st : Sys) (hartid : Nat) : Option (List Nat × Sys) :=
  match wait_ipi st hartid with
  | none => none
  | some st2 => some (readCString st2.mem SMP_ADDR SMP_SIZE, st2)

/-- All-zero initial machine state. -/
def initSys : Sys := { mem := fun _ => 0, clint := fun _ => 0 }

/-- Memory-access events, used to express the ordering claims: a fence(w,o)
(from the __io_bw() half of the writeb/writew macros in io.h), a store, or a
load. -/
inductive Ev where
  | fence : Ev
  | store : Nat → Nat → Ev
  | load : Nat → Ev
deriving DecidableEq

/-- Event trace of memcpy (libs/string.c) storing the bytes of `l` from address
`a`: one plain store per byte, no fences. -/
def memcpyTr : Nat → List Nat → List Ev
  | _, [] => []
  | a, b :: bs => Ev.store a b :: memcpyTr (a + 1) bs

/-- Event trace of smp_memcpy (sbi/main.c) storing the bytes of `l` from
address `a`: each byte goes through writeb (io.h), which issues fence(w,o)
before the store. -/
def smp_memcpyTr : Nat → List Nat → List Ev
  | _, [] => []
  | a, b :: bs => Ev.fence :: Ev.store a b :: smp_memcpyTr (a + 1) bs

/-- Event trace of clint_send_soft: writew(1, msip) = fence(w,o) then the store. -/
def clint_send_soft_tr (hartid : Nat) : List Ev :=
  [Ev.fence, Ev.store (CLINT_SOFT CLINT_CTRL_ADDR hartid) 1]

/-- Event trace of clint_clear_soft: writew(0, msip) = fence(w,o) then the store. -/
def clint_clear_soft_tr (hartid : Nat) : List Ev :=
  [Ev.fence, Ev.store (CLINT_SOFT CLINT_CTRL_ADDR hartid) 0]

/-- Event trace of the send path of test_ipi: the memcpy of msg ++ [0] into the
mailbox, then clint_send_soft(to_hartid). -/
def sendTr (msg : List Nat) (to_hartid : Nat) : List Ev :=
  memcpyTr SMP_ADDR (msg ++ [0]) ++ clint_send_soft_tr to_hartid

/-- Checks that every store in the trace is immediately preceded by a fence
(the individually fenced write discipline of writeb/writew). -/
def storesFenced : List Ev → Bool
  | [] => true
  | Ev.fence :: Ev.store _ _ :: rest => storesFenced rest
  | Ev.store _ _ :: _ => false
  | _ :: rest => storesFenced rest

/-- Event trace of wait_ipi after the wfi loop observes the pending bit: the
clear of the hart's own msip word.  (The wfi loop itself performs only CSR
reads, which touch no memory.) -/
def wait_ipi_tr (hartid : Nat) : List Ev := clint_clear_soft_tr hartid

/-- Loads performed when reading an n-byte mailbox message plus its NUL
terminator from address `a` (uart_puts's scan of SMP_ADDR).  Console output
writes to the UART data register are omitted: the claims concern only the
mailbox and msip accesses. -/
def readCStringTr (a n : Nat) : List Ev :=
  (List.range (n + 1)).map (fun i => Ev.load (a + i))

/-- Event trace of one wake iteration of other_main (sbi/main.c): wait_ipi
(clear own pending bit), read the mailbox message (n message bytes plus NUL),
then clint_send_soft(ZERO_HART) to reply to the primary. -/
def other_main_wake_tr (hartid n : Nat) : List Ev :=
  wait_ipi_tr hartid ++ readCStringTr SMP_ADDR n ++ clint_send_soft_tr ZERO_HART

/-- Loads of the completing pass of the smp_resume sweep: one poll of each
hart's msip word, in address order. -/
def sweepTr : List Ev :=
  (List.range MAX_HARTS).map (fun g => Ev.load (CLINT_SOFT CLINT_CTRL_ADDR g))

/-- Event trace of the primary's smp_resume wake path (smp.h) after the wfi
loop observes its own pending bit: sw zero to its own msip word (a plain
store, the code is assembly), then the sweep polls. -/
def resume_wake_tr (hartid : Nat) : List Ev :=
  Ev.store (CLINT_SOFT CLINT_CTRL_ADDR hartid) 0 :: sweepTr

/-- The copy loop of memcpy (libs/string.c): while (n-- > 0) *d++ = *s++,
reading the source from the same memory as the destination. -/
def memcpyLoop : Mem → Nat → Nat → Nat → Mem
  | m, _, _, 0 => m
  | m, d, s, n + 1 => memcpyLoop (upd m d (m s)) (d + 1) (s + 1) n

/-- Embedding of memcpy (libs/string.c): runs the copy loop and returns dst. -/
def memcpy (m : Mem) (dst src n : Nat) : Nat × Mem := (dst, memcpyLoop m dst src n)

/-- The copy loop of smp_memcpy (sbi/main.c): while (n-- > 0)
writeb(readb(s), d), s++, d++.  The fenced accessors move the same data as the
plain ones; the fences appear only in the event trace (smp_memcpyTr). -/
def smp_memcpyLoop : Mem → Nat → Nat → Nat → Mem
  | m, _, _, 0 => m
  | m, d, s, n + 1 => smp_memcpyLoop (upd m d (m s)) (d + 1) (s + 1) n

/-- Embedding of smp_memcpy (sbi/main.c): runs the fenced copy loop and
returns dst. -/
def smp_memcpy (m : Mem) (dst src n : Nat) : Nat × Mem :=
  (dst, smp_memcpyLoop m dst src n)

/-- Operations acting on the CLINT register file: the three register writes of
clint.c, plus the hardware timer advance.  The tick operation is Modelled from
the spec: the mtime counter is a hardware counter not implemented in the
repository; per the spec it is a "global monotonically non-decreasing timer
counter", modelled as adding an arbitrary increment to the mtime register. -/
inductive ClintOp where
  | raise : Nat → ClintOp
  | clear : Nat → ClintOp
  | setTimecmp : Nat → Nat → ClintOp
  | tick : Nat → ClintOp
deriving DecidableEq

/-- Effect of one operation on the CLINT register file. -/
def clintStep (c : Mem) : ClintOp → Mem
  | ClintOp.raise h => clint_send_soft c h
  | ClintOp.clear h => clint_clear_soft c h
  | ClintOp.setTimecmp h t => clint_set_timecmp c h t
  | ClintOp.tick d =>
    upd c (CLINT_CTRL_ADDR + CLINT_MTIME_OFFSET)
      (c (CLINT_CTRL_ADDR + CLINT_MTIME_OFFSET) + d)

/-- An operation addressing a hart inside the configured hart count (an
out-of-range id is a configuration error per the spec). -/
def validOp : ClintOp → Bool
  | ClintOp.raise h => decide (h < MAX_HARTS)
  | ClintOp.clear h => decide (h < MAX_HARTS)
  | ClintOp.setTimecmp h _ => decide (h < MAX_HARTS)
  | ClintOp.tick _ => true

/-- Run a sequence of CLINT operations. -/
def clintRun (c : Mem) (ops : List ClintOp) : Mem := ops.foldl clintStep c

end TCore

namespace TCore

theorem upd_same (m : Mem) (a v : Nat) : upd m a v a = v := by simp [upd]

theorem upd_other (m : Mem) (a v x : Nat) (h : x ≠ a) : upd m a v x = m x := by
  simp [upd, h]

/-- Claim C5: for every hart id within the configured hart count, raise makes the
pending bit true, clear makes it false, and repeating either operation in the
already-reached state has no additional effect (and, the operations being
total, signals no error). -/
theorem raise_clear_pending_idempotent :
    ∀ (c : Mem) (h : Nat), h < MAX_HARTS →
      is_pending (clint_send_soft c h) h = true
      ∧ is_pending (clint_clear_soft c h) h = false
      ∧ clint_clear_soft (clint_clear_soft c h) h = clint_clear_soft c h
      ∧ clint_send_soft (clint_send_soft c h) h = clint_send_soft c h := by
  intro c h _
  refine ⟨?_, ?_, ?_, ?_⟩
  · simp [is_pending, clint_check_soft, clint_send_soft, upd_same]
  · simp [is_pending, clint_check_soft, clint_clear_soft, upd_same]
  · funext x
    by_cases hx : x = CLINT_SOFT CLINT_CTRL_ADDR h <;> simp [clint_clear_soft, upd, hx]
  · funext x
    by_cases hx : x = CLINT_SOFT CLINT_CTRL_ADDR h <;> simp [clint_send_soft, upd, hx]

theorem raise_clear_pending_idempotent_witness :
    is_pending (clint_send_soft (fun _ => 0) 2) 2 = true
    ∧ is_pending (clint_clear_soft (fun _ => 0) 2) 2 = false
    ∧ clint_clear_soft (clint_clear_soft (fun _ => 0) 2) 2 = clint_clear_soft (fun _ => 0) 2
    ∧ clint_send_soft (clint_send_soft (fun _ => 0) 2) 2 = clint_send_soft (fun _ => 0) 2 :=
  raise_clear_pending_idempotent (fun _ => 0) 2 (by decide)

/-- Claim C6: raise(h) and clear(h) leave every distinct hart g's pending bit
unchanged; and, concretely, raising only hart 2's bit from the all-clear state
leaves harts 1, 3 and 4 not pending while hart 2 is pending. -/
theorem cross_hart_isolation :
    (∀ (c : Mem) (g h : Nat), g ≠ h → g < MAX_HARTS → h < MAX_HARTS →
        is_pending (clint_send_soft c h) g = is_pending c g
        ∧ is_pending (clint_clear_soft c h) g = is_pending c g)
    ∧ (is_pending (clint_send_soft (fun _ => 0) 2) 1 = false
       ∧ is_pending (clint_send_soft (fun _ => 0) 2) 3 = false
       ∧ is_pending (clint_send_soft (fun _ => 0) 2) 4 = false
       ∧ is_pending (clint_send_soft (fun _ => 0) 2) 2 = true) := by
  constructor
  · intro c g h hgh _ _
    have haddr : CLINT_SOFT CLINT_CTRL_ADDR g ≠ CLINT_SOFT CLINT_CTRL_ADDR h := by
      simp only [CLINT_SOFT, CLINT_MSIP_SIZE, CLINT_MSIP_OFFSET]
      omega
    constructor
    · simp [is_pending, clint_check_soft, clint_send_soft, upd_other _ _ _ _ haddr]
    · simp [is_pending, clint_check_soft, clint_clear_soft, upd_other _ _ _ _ haddr]
  · exact ⟨by decide, by decide, by decide, by decide⟩

theorem cross_hart_isolation_witness :
    is_pending (clint_send_soft (fun _ => 0) 2) 1 = is_pending (fun _ => 0) 1
    ∧ is_pending (clint_clear_soft (fun _ => 0) 2) 1 = is_pending (fun _ => 0) 1 :=
  cross_hart_isolation.1 (fun _ => 0) 1 2 (by decide) (by decide) (by decide)

/-- Claim C7: the BROADCAST phase of smp_resume stores 1 to the msip register of every
hart id in [0, MAX_HARTS) exactly once, in increasing order of hart id,
including the primary's own id 0. -/
theorem broadcast_raises_each_once :
    broadcastAddrs = (List.range MAX_HARTS).map (fun h => CLINT_SOFT CLINT_CTRL_ADDR h)
    ∧ broadcastAddrs.map (fun a => (a - CLINT_CTRL_ADDR) / CLINT_MSIP_SIZE)
        = [0, 1, 2, 3, 4] := by
  constructor
  · decide
  · decide

/-- Claim C1: if the primary's barrier SWEEP completes (over a static pending state),
then every hart id h in [1, MAX_HARTS) has is_pending(h) = false: the sweep
polls each hart's bit and cannot proceed past a bit that reads nonzero. -/
theorem sweep_rendezvous :
    ∀ (c : Mem) (h : Nat), sweepCompletes c = true → 1 ≤ h → h < MAX_HARTS →
      is_pending c h = false := by
  intro c h hs h1 h2
  simp only [sweepCompletes, sweepFrom, CLINT_END_HART_IPI, CLINT_CTRL_ADDR,
    CLINT_MSIP_SIZE, MAX_HARTS] at hs
  norm_num at hs
  obtain ⟨b0, b1, b2, b3, b4⟩ := hs
  have h5 : h < 5 := h2
  interval_cases h
  · simp [is_pending, clint_check_soft, CLINT_SOFT, CLINT_CTRL_ADDR,
      CLINT_MSIP_SIZE, CLINT_MSIP_OFFSET, b1]
  · simp [is_pending, clint_check_soft, CLINT_SOFT, CLINT_CTRL_ADDR,
      CLINT_MSIP_SIZE, CLINT_MSIP_OFFSET, b2]
  · simp [is_pending, clint_check_soft, CLINT_SOFT, CLINT_CTRL_ADDR,
      CLINT_MSIP_SIZE, CLINT_MSIP_OFFSET, b3]
  · simp [is_pending, clint_check_soft, CLINT_SOFT, CLINT_CTRL_ADDR,
      CLINT_MSIP_SIZE, CLINT_MSIP_OFFSET, b4]

theorem sweep_rendezvous_witness :
    is_pending (fun _ => 0) 3 = false :=
  sweep_rendezvous (fun _ => 0) 3 (by decide) (by decide) (by decide)

end TCore

namespace TCore

theorem writeBytes_lt :
    ∀ (l : List Nat) (m : Mem) (a x : Nat), x < a → writeBytes m a l x = m x := by
  intro l
  induction l with
  | nil => intro m a x _; rfl
  | cons b bs ih =>
    intro m a x hx
    show writeBytes (upd m a b) (a + 1) bs x = m x
    rw [ih (upd m a b) (a + 1) x (by omega)]
    exact upd_other m a b x (by omega)

theorem writeBytes_getD :
    ∀ (l : List Nat) (m : Mem) (a i : Nat), i < l.length →
      writeBytes m a l (a + i) = l.getD i 0 := by
  intro l
  induction l with
  | nil => intro m a i hi; simp at hi
  | cons b bs ih =>
    intro m a i hi
    match i with
    | 0 =>
      show writeBytes (upd m a b) (a + 1) bs a = b
      rw [writeBytes_lt bs (upd m a b) (a + 1) a (by omega)]
      exact upd_same m a b
    | j + 1 =>
      show writeBytes (upd m a b) (a + 1) bs (a + (j + 1)) = bs.getD j 0
      rw [show a + (j + 1) = (a + 1) + j by omega]
      exact ih (upd m a b) (a + 1) j (by simpa using hi)

theorem readCString_writeBytes :
    ∀ (msg : List Nat) (m : Mem) (a fuel : Nat),
      (∀ b ∈ msg, b ≠ 0) → msg.length < fuel →
      readCString (writeBytes m a (msg ++ [0])) a fuel = msg := by
  intro msg
  induction msg with
  | nil =>
    intro m a fuel _ hf
    match fuel with
    | f + 1 =>
      show readCString (writeBytes (upd m a 0) (a + 1) []) a (f + 1) = []
      simp [readCString, writeBytes, upd_same]
  | cons b bs ih =>
    intro m a fuel hb hf
    match fuel with
    | f + 1 =>
      have hba : writeBytes (upd m a b) (a + 1) (bs ++ [0]) a = b := by
        rw [writeBytes_lt (bs ++ [0]) (upd m a b) (a + 1) a (by omega)]
        exact upd_same m a b
      have hbne : b ≠ 0 := hb b (List.mem_cons_self b bs)
      show readCString (writeBytes (upd m a b) (a + 1) (bs ++ [0])) a (f + 1) = b :: bs
      rw [readCString, hba, if_neg hbne]
      exact congrArg (b :: ·)
        (ih (upd m a b) (a + 1) f (fun x hx => hb x (List.mem_cons_of_mem b hx))
          (by simpa using hf))

/-- Claim C3: sending a NUL-free message shorter than the mailbox capacity to hart h
and then receiving on hart h, with no intervening send, yields exactly the sent
bytes. -/
theorem send_receive_roundtrip :
    ∀ (st : Sys) (msg : List Nat) (to_hartid : Nat),
      (∀ b ∈ msg, b ≠ 0) → msg.length < SMP_SIZE →
      (receive (send st msg to_hartid) to_hartid).map Prod.fst = some msg := by
  intro st msg to_hartid h0 hlen
  have hp : is_pending (clint_send_soft st.clint to_hartid) to_hartid = true := by
    simp [is_pending, clint_check_soft, clint_send_soft, upd_same]
  have hw : wait_ipi (send st msg to_hartid) to_hartid
      = some { mem := writeBytes st.mem SMP_ADDR (msg ++ [0]),
               clint := clint_clear_soft (clint_send_soft st.clint to_hartid) to_hartid } := by
    simp [wait_ipi, send, hp]
  unfold receive
  rw [hw]
  exact congrArg some (readCString_writeBytes msg st.mem SMP_ADDR SMP_SIZE h0 hlen)

theorem send_receive_roundtrip_witness :
    (∀ b ∈ [104, 101, 108, 108, 111], b ≠ 0)
    ∧ ([104, 101, 108, 108, 111] : List Nat).length < SMP_SIZE
    ∧ (receive (send initSys [104, 101, 108, 108, 111] 1) 1).map Prod.fst
        = some [104, 101, 108, 108, 111] :=
  ⟨by decide, by decide,
   send_receive_roundtrip initSys [104, 101, 108, 108, 111] 1 (by decide) (by decide)⟩

/-- Claim C2 counterexample: a message of length exactly SMP_SIZE (the mailbox
capacity) is not rejected by the send path of test_ipi: there is no length
check, and send writes the message's first byte into the mailbox, refuting the
claim that such a send fails with OutOfRange without writing any byte. -/
theorem send_mem_eq (st : Sys) (msg : List Nat) (to_hartid : Nat) :
    (send st msg to_hartid).mem = writeBytes st.mem SMP_ADDR (msg ++ [0]) := rfl

theorem send_no_length_check :
    (List.replicate SMP_SIZE 65).length = SMP_SIZE
    ∧ (send initSys (List.replicate SMP_SIZE 65) 1).mem SMP_ADDR ≠ initSys.mem SMP_ADDR := by
  refine ⟨List.length_replicate _ _, ?_⟩
  intro hcontra
  have h := writeBytes_getD (List.replicate SMP_SIZE 65 ++ [0]) initSys.mem SMP_ADDR 0
    (by rw [List.length_append, List.length_replicate]; norm_num [SMP_SIZE])
  rw [Nat.add_zero] at h
  have hg : (List.replicate SMP_SIZE 65 ++ [0]).getD 0 0 = 65 := by
    rw [List.getD_append _ _ _ _ (by rw [List.length_replicate]; norm_num [SMP_SIZE])]
    rw [List.getD_eq_getElem?_getD, List.getElem?_replicate]
    norm_num [SMP_SIZE]
  have hsm : (send initSys (List.replicate SMP_SIZE 65) 1).mem SMP_ADDR
      = writeBytes initSys.mem SMP_ADDR (List.replicate SMP_SIZE 65 ++ [0]) SMP_ADDR :=
    congrFun (send_mem_eq initSys (List.replicate SMP_SIZE 65) 1) SMP_ADDR
  have hini : initSys.mem SMP_ADDR = 0 := rfl
  have h65 : (send initSys (List.replicate SMP_SIZE 65) 1).mem SMP_ADDR = 65 :=
    hsm.trans (h.trans hg)
  have h0 : (send initSys (List.replicate SMP_SIZE 65) 1).mem SMP_ADDR = 0 :=
    hcontra.trans hini
  exact absurd (h65.symm.trans h0) (by decide)

/-- Claim C2 amended: send performs the full copy unconditionally: for every message,
every byte of msg ++ [0] lands in memory starting at SMP_ADDR, with no length
check and no OutOfRange error path; a message of length capacity - 1 is written
entirely inside the mailbox region, and a message of length >= capacity is
still written (overrunning the region) rather than rejected. -/
theorem send_writes_all_bytes :
    ∀ (st : Sys) (msg : List Nat) (to_hartid i : Nat), i ≤ msg.length →
      (send st msg to_hartid).mem (SMP_ADDR + i) = (msg ++ [0]).getD i 0 := by
  intro st msg to_hartid i hi
  have hlen : i < (msg ++ [0]).length := by
    rw [List.length_append, List.length_singleton]; omega
  exact writeBytes_getD (msg ++ [0]) st.mem SMP_ADDR i hlen

theorem send_writes_all_bytes_witness :
    (send initSys [7] 1).mem (SMP_ADDR + 1) = ([7] ++ [0]).getD 1 0 :=
  send_writes_all_bytes initSys [7] 1 1 (by decide)

end TCore

namespace TCore

/-- Claim C4 counterexample: the send path of test_ipi copies the message with plain
memcpy, whose byte stores are not individually fenced (the first two stores of
the trace have no fence between them), while the unused smp_memcpy path would
satisfy the every-store-fenced discipline.  This refutes the claim that every
message byte is written through the individually fenced writeb path. -/
theorem send_bytes_unfenced :
    storesFenced (sendTr [104, 105] 1) = false
    ∧ storesFenced (smp_memcpyTr SMP_ADDR ([104, 105] ++ [0]) ++ clint_send_soft_tr 1)
        = true :=
  ⟨by decide, by decide⟩

theorem memcpyTr_mem :
    ∀ (l : List Nat) (a : Nat) (e : Ev), e ∈ memcpyTr a l →
      ∃ i v, i < l.length ∧ e = Ev.store (a + i) v := by
  intro l
  induction l with
  | nil => intro a e he; simp [memcpyTr] at he
  | cons b bs ih =>
    intro a e he
    simp only [memcpyTr, List.mem_cons] at he
    rcases he with rfl | he
    · exact ⟨0, b, by simp, by simp⟩
    · obtain ⟨i, v, hi, rfl⟩ := ih (a + 1) e he
      refine ⟨i + 1, v, by simp [Nat.succ_lt_succ hi], ?_⟩
      congr 1
      omega

/-- Claim C4 amended: in the send path every mailbox byte (message plus trailing NUL)
is written by a plain unfenced store (memcpy), after which the single fence
issued by the raise's writew precedes the pending-bit store; thus all mailbox
stores are ordered before the pending-bit store by that one fence, but the
bytes are not individually fenced and do not go through writeb. -/
theorem send_fence_before_raise :
    ∀ (msg : List Nat) (to_hartid : Nat),
      sendTr msg to_hartid
        = memcpyTr SMP_ADDR (msg ++ [0])
            ++ [Ev.fence, Ev.store (CLINT_SOFT CLINT_CTRL_ADDR to_hartid) 1]
      ∧ ∀ e ∈ memcpyTr SMP_ADDR (msg ++ [0]),
          ∃ a v, e = Ev.store a v ∧ SMP_ADDR ≤ a ∧ a < SMP_ADDR + (msg.length + 1) := by
  intro msg to_hartid
  constructor
  · rfl
  · intro e he
    obtain ⟨i, v, hi, rfl⟩ := memcpyTr_mem (msg ++ [0]) SMP_ADDR e he
    refine ⟨SMP_ADDR + i, v, rfl, Nat.le_add_right _ _, ?_⟩
    have hlen : i < msg.length + 1 := by
      rw [List.length_append, List.length_singleton] at hi
      omega
    omega

theorem send_fence_before_raise_witness :
    sendTr [104] 1
      = memcpyTr SMP_ADDR ([104] ++ [0])
          ++ [Ev.fence, Ev.store (CLINT_SOFT CLINT_CTRL_ADDR 1) 1]
    ∧ (∃ a v, Ev.store SMP_ADDR 104 = Ev.store a v
        ∧ SMP_ADDR ≤ a ∧ a < SMP_ADDR + (([104] : List Nat).length + 1)) :=
  ⟨(send_fence_before_raise [104] 1).1,
   (send_fence_before_raise [104] 1).2 (Ev.store SMP_ADDR 104) (by decide)⟩

/-- Claim C8: whenever a hart's wait loop observes its own pending bit set, the clear
of its own msip word is the very first memory action afterwards: in the
other_main wake trace the clear store precedes every mailbox load (receive
reads the message only after the clear), and in the smp_resume wake trace the
clear store precedes every sweep poll (the primary clears itself before the
barrier sweep). -/
theorem ack_before_any_use :
    ∀ (hartid n : Nat),
      (∃ rest, other_main_wake_tr hartid n
          = Ev.fence :: Ev.store (CLINT_SOFT CLINT_CTRL_ADDR hartid) 0 :: rest)
      ∧ (∀ e ∈ readCStringTr SMP_ADDR n, ∃ i, i ≤ n ∧ e = Ev.load (SMP_ADDR + i))
      ∧ (∃ rest, resume_wake_tr hartid
          = Ev.store (CLINT_SOFT CLINT_CTRL_ADDR hartid) 0 :: rest)
      ∧ (∀ e ∈ sweepTr, ∃ g, g < MAX_HARTS ∧ e = Ev.load (CLINT_SOFT CLINT_CTRL_ADDR g)) := by
  intro hartid n
  refine ⟨⟨readCStringTr SMP_ADDR n ++ clint_send_soft_tr ZERO_HART, rfl⟩, ?_,
    ⟨sweepTr, rfl⟩, ?_⟩
  · intro e he
    simp only [readCStringTr, List.mem_map, List.mem_range] at he
    obtain ⟨i, hi, rfl⟩ := he
    exact ⟨i, by omega, rfl⟩
  · intro e he
    simp only [sweepTr, List.mem_map, List.mem_range] at he
    obtain ⟨g, hg, rfl⟩ := he
    exact ⟨g, hg, rfl⟩

theorem ack_before_any_use_witness :
    (∃ rest, other_main_wake_tr 1 4
        = Ev.fence :: Ev.store (CLINT_SOFT CLINT_CTRL_ADDR 1) 0 :: rest)
    ∧ (∃ i, i ≤ 4 ∧ Ev.load SMP_ADDR = Ev.load (SMP_ADDR + i)) :=
  ⟨(ack_before_any_use 1 4).1,
   (ack_before_any_use 1 4).2.1 (Ev.load SMP_ADDR) (by decide)⟩

theorem clintStep_mtime_le :
    ∀ (c : Mem) (op : ClintOp), validOp op = true →
      clint_get_mtime c ≤ clint_get_mtime (clintStep c op) := by
  intro c op hv
  cases op with
  | raise h =>
    have hh : h < 5 := by simpa [validOp, MAX_HARTS] using hv
    have hne : CLINT_CTRL_ADDR + CLINT_MTIME_OFFSET ≠ CLINT_SOFT CLINT_CTRL_ADDR h := by
      simp only [CLINT_SOFT, CLINT_CTRL_ADDR, CLINT_MTIME_OFFSET, CLINT_MSIP_SIZE,
        CLINT_MSIP_OFFSET]
      omega
    simp [clintStep, clint_get_mtime, clint_send_soft, upd_other _ _ _ _ hne]
  | clear h =>
    have hh : h < 5 := by simpa [validOp, MAX_HARTS] using hv
    have hne : CLINT_CTRL_ADDR + CLINT_MTIME_OFFSET ≠ CLINT_SOFT CLINT_CTRL_ADDR h := by
      simp only [CLINT_SOFT, CLINT_CTRL_ADDR, CLINT_MTIME_OFFSET, CLINT_MSIP_SIZE,
        CLINT_MSIP_OFFSET]
      omega
    simp [clintStep, clint_get_mtime, clint_clear_soft, upd_other _ _ _ _ hne]
  | setTimecmp h t =>
    have hh : h < 5 := by simpa [validOp, MAX_HARTS] using hv
    have hne : CLINT_CTRL_ADDR + CLINT_MTIME_OFFSET
        ≠ CLINT_CTRL_ADDR + h * CLINT_MTIMECMP_SIZE + CLINT_MTIMECMP_OFFSET := by
      simp only [CLINT_CTRL_ADDR, CLINT_MTIME_OFFSET, CLINT_MTIMECMP_SIZE,
        CLINT_MTIMECMP_OFFSET]
      omega
    simp [clintStep, clint_get_mtime, clint_set_timecmp, upd_other _ _ _ _ hne]
  | tick d =>
    simp only [clintStep, clint_get_mtime]
    rw [upd_same]
    exact Nat.le_add_right _ _

/-- Claim C9: get_timer (clint_get_mtime, a pure read of the mtime register) returns
non-decreasing values across any sequence of CLINT operations interleaved with
hardware timer advances: the register writes of clint.c never touch the mtime
register (for hart ids within the configured hart count), and the hardware
tick only increases it. -/
theorem mtime_monotone :
    ∀ (ops : List ClintOp) (c : Mem), (∀ op ∈ ops, validOp op = true) →
      clint_get_mtime c ≤ clint_get_mtime (clintRun c ops) := by
  intro ops
  induction ops with
  | nil => intro c _; exact Nat.le_refl _
  | cons op ops ih =>
    intro c hv
    have h1 := clintStep_mtime_le c op (hv op (List.mem_cons_self _ _))
    have h2 := ih (clintStep c op) (fun o ho => hv o (List.mem_cons_of_mem _ ho))
    exact Nat.le_trans h1 h2

theorem mtime_monotone_witness :
    clint_get_mtime (fun _ => 0)
      ≤ clint_get_mtime
          (clintRun (fun _ => 0) [ClintOp.raise 1, ClintOp.tick 7, ClintOp.clear 1]) :=
  mtime_monotone [ClintOp.raise 1, ClintOp.tick 7, ClintOp.clear 1] (fun _ => 0) (by decide)

theorem smp_memcpyLoop_eq_memcpyLoop :
    ∀ (n : Nat) (m : Mem) (d s : Nat), smp_memcpyLoop m d s n = memcpyLoop m d s n := by
  intro n
  induction n with
  | zero => intro m d s; rfl
  | succ k ih => intro m d s; simp only [smp_memcpyLoop, memcpyLoop]; exact ih _ _ _

theorem memcpyLoop_spec :
    ∀ (n : Nat) (m : Mem) (d s : Nat), (d + n ≤ s ∨ s + n ≤ d) →
      ∀ a, memcpyLoop m d s n a
        = if d ≤ a ∧ a < d + n then m (s + (a - d)) else m a := by
  intro n
  induction n with
  | zero =>
    intro m d s _ a
    rw [if_neg (by omega : ¬(d ≤ a ∧ a < d + 0))]
    rfl
  | succ k ih =>
    intro m d s hdisj a
    have hdisj' : (d + 1) + k ≤ (s + 1) ∨ (s + 1) + k ≤ (d + 1) := by omega
    rw [show memcpyLoop m d s (k + 1) = memcpyLoop (upd m d (m s)) (d + 1) (s + 1) k
      from rfl]
    rw [ih (upd m d (m s)) (d + 1) (s + 1) hdisj' a]
    by_cases h1 : d + 1 ≤ a ∧ a < d + 1 + k
    · rw [if_pos h1]
      rw [show s + 1 + (a - (d + 1)) = s + (a - d) by omega]
      rw [upd_other _ _ _ _ (by omega : s + (a - d) ≠ d)]
      rw [if_pos (by omega : d ≤ a ∧ a < d + (k + 1))]
    · rw [if_neg h1]
      by_cases h2 : a = d
      · subst h2
        rw [upd_same]
        rw [if_pos (by omega : a ≤ a ∧ a < a + (k + 1))]
        rw [show a - a = 0 by omega, Nat.add_zero]
      · rw [upd_other _ _ _ _ h2]
        rw [if_neg (by omega : ¬(d ≤ a ∧ a < d + (k + 1)))]

/-- Claim C10 counterexample: with overlapping regions (dst = src + 1, n = 2) neither
memcpy nor smp_memcpy produces "the n bytes of src copied to dst": on the
identity-valued memory the byte landing at dst + 1 is 0, not src byte 1 (= 1),
because the forward copy rereads a byte it already overwrote. -/
theorem memcpy_overlap_not_plain_copy :
    (memcpy (fun a => a) 1 0 2).2 (1 + 1) ≠ (fun a => a : Mem) (0 + 1)
    ∧ (smp_memcpy (fun a => a) 1 0 2).2 (1 + 1) ≠ (fun a => a : Mem) (0 + 1) :=
  ⟨by decide, by decide⟩

/-- Claim C10 amended: for every destination, source and length, smp_memcpy and
memcpy produce identical results (same memory, both returning dst); and when
the source and destination regions do not overlap, the resulting memory is the
n source bytes copied to dst with all other locations unchanged. -/
theorem memcpy_equiv_and_copy :
    ∀ (m : Mem) (dst src n : Nat),
      smp_memcpy m dst src n = memcpy m dst src n
      ∧ (memcpy m dst src n).1 = dst
      ∧ ((dst + n ≤ src ∨ src + n ≤ dst) →
          ∀ a, (memcpy m dst src n).2 a
            = if dst ≤ a ∧ a < dst + n then m (src + (a - dst)) else m a) := by
  intro m dst src n
  refine ⟨?_, rfl, ?_⟩
  · show (dst, smp_memcpyLoop m dst src n) = (dst, memcpyLoop m dst src n)
    rw [smp_memcpyLoop_eq_memcpyLoop]
  · intro hdisj a
    exact memcpyLoop_spec n m dst src hdisj a

theorem memcpy_equiv_and_copy_witness :
    smp_memcpy (fun a => a) 10 0 2 = memcpy (fun a => a) 10 0 2
    ∧ (memcpy (fun a => a) 10 0 2).1 = 10
    ∧ (memcpy (fun a => a) 10 0 2).2 11
        = if 10 ≤ 11 ∧ 11 < 10 + 2 then (fun a => a : Mem) (0 + (11 - 10))
          else (fun a => a : Mem) 11 :=
  ⟨(memcpy_equiv_and_copy (fun a => a) 10 0 2).1,
   (memcpy_equiv_and_copy (fun a => a) 10 0 2).2.1,
   (memcpy_equiv_and_copy (fun a => a) 10 0 2).2.2 (Or.inr (by decide)) 11⟩

end TCore
